import Mathlib

/-!
Verification of the pileup-to-ALLC conversion engine of ALLCools
(src/ALLCools/_bam_to_allc.py), as a shallow embedding in Lean 4.

The embedding models, faithfully to the Python source:
  - Python slicing semantics on strings (negative indices, clamping);
  - the indel-annotation stripping loop of `_bam_to_allc_worker`
    (lines 206-238 of the source);
  - the per-record counting and emission logic of `_bam_to_allc_worker`
    for refBase "C" and "G" (lines 241-305), including the per-context
    statistics dictionaries;
  - `_get_chromosome_sequence_upper` (lines 106-117);
  - `_convert_bam_strandness` (lines 62-88) together with
    `_is_read_ct_conversion_hisat3n` and `_is_read_ct_conversion_bismark`.

Strings are modelled as `List Char`; machine integers as `Int` / `Nat`
(Python integers are unbounded, so no modular arithmetic is needed);
Python exceptions that are caught by the source are modelled as `Option`;
the uncaught `ValueError` of `_convert_bam_strandness` as `Except String`.
-/

set_option maxRecDepth 8192

/-- Python index normalisation for a slice endpoint: for a sequence of
length `len`, the endpoint `i` of `s[a:b]` becomes `max 0 (len + i)` when
`i < 0`, and `min i len` otherwise. -/
def pyBound (len : Nat) (i : Int) : Nat :=
  if i < 0 then ((len : Int) + i).toNat else min i.toNat len

/-- Python slice `l[a:b]` with full Python semantics (negative indices
count from the end, out-of-range indices clamp, empty result when the
normalised start is not below the normalised stop). -/
def pySlice (l : List Char) (a b : Int) : List Char :=
  (l.take (pyBound l.length b)).drop (pyBound l.length a)

/-- Python prefix slice `l[:b]` (used by `_get_chromosome_sequence_upper`
as `line[:tail]` with a negative `tail`). -/
def pyTake (l : List Char) (b : Int) : List Char :=
  l.take (pyBound l.length b)

/-- Value of a run of decimal digit characters, as computed by the Python
`int` constructor on the collected digit string (`int(indel_size)`). -/
def digitsToNat (ds : List Char) : Nat :=
  ds.foldl (fun n c => n * 10 + (c.toNat - 48)) 0

/-- The maximal run of decimal digits of `s` starting at index `i`.
This models the inner `while True` loop of the indel stripper, which
keeps accepting characters as long as the Python `int` constructor
succeeds on them, and stops at the first non-digit or at the end of the
string (`IndexError`). -/
def digitRun (s : List Char) (i : Nat) : List Char :=
  (s.drop i).takeWhile Char.isDigit

/-- The indel-stripping `while index < len(read_bases)` loop of
`_bam_to_allc_worker` (source lines 212-236), followed by the final flush
`read_bases_no_indel += read_bases[prev_index:index]` (line 237).

State: `index` is the scan position, `prevIndex` the start of the pending
literal chunk, `acc` the output accumulated so far
(`read_bases_no_indel`).  On a "+" or "-" the digit run after it is read;
if it is empty the marker is treated as a literal (`index += 1`),
otherwise the pending chunk `read_bases[prev_index:index]` is flushed and
the scan jumps over the marker, the digit run and `indel_size` further
characters.  The `fuel` argument only bounds the iteration count for
structural recursion: every iteration advances `index` by at least one,
so any `fuel > s.length - index` is exhaustive, and `removeIndels` below
supplies `s.length + 1`.  When fuel runs out the result is the same flush
the loop exit performs. -/
def indelLoop (s : List Char) : Nat → Nat → Nat → List Char → List Char
  | 0, index, prevIndex, acc => acc ++ (s.take index).drop prevIndex
  | fuel + 1, index, prevIndex, acc =>
    if h : index < s.length then
      if s.get ⟨index, h⟩ = '+' ∨ s.get ⟨index, h⟩ = '-' then
        if (digitRun s (index + 1)).isEmpty then
          indelLoop s fuel (index + 1) prevIndex acc
        else
          indelLoop s fuel
            (index + 1 + (digitRun s (index + 1)).length + digitsToNat (digitRun s (index + 1)))
            (index + 1 + (digitRun s (index + 1)).length + digitsToNat (digitRun s (index + 1)))
            (acc ++ (s.take index).drop prevIndex)
      else
        indelLoop s fuel (index + 1) prevIndex acc
    else acc ++ (s.take index).drop prevIndex

/-- The "deal with indels" step of `_bam_to_allc_worker` (source lines
206-238): when the call string contains at least one "+" or "-" the
stripping loop runs, otherwise the string is returned unchanged. -/
def removeIndels (s : List Char) : List Char :=
  if 0 < s.count '+' + s.count '-' then indelLoop s (s.length + 1) 0 0 [] else s

/-- The indel stripper as described by the specification: scan left to
right; on a "+" or "-" read the following decimal digit run as a length
`n`, then remove the marker, the digit run and the `n` characters after
it; a "+" or "-" not followed by at least one digit is kept as a literal
character; every other character is kept in order.  Stated from the
specification text for comparison with `removeIndels` (claim C3). -/
def specIndelStrip : List Char → List Char
  | [] => []
  | c :: rest =>
    if c = '+' ∨ c = '-' then
      if (rest.takeWhile Char.isDigit).isEmpty then
        c :: specIndelStrip rest
      else
        specIndelStrip
          ((rest.drop (rest.takeWhile Char.isDigit).length).drop
            (digitsToNat (rest.takeWhile Char.isDigit)))
    else c :: specIndelStrip rest
termination_by l => l.length
decreasing_by
  · simp
  · rename_i hds
    have h1 : 0 < (rest.takeWhile Char.isDigit).length := by
      simp only [List.isEmpty_iff] at hds
      exact List.length_pos.mpr hds
    have h2 : (rest.takeWhile Char.isDigit).length ≤ rest.length :=
      (List.takeWhile_sublist Char.isDigit).length_le
    simp only [List.length_drop, List.length_cons]
    omega
  · simp

/-- The `complement` dictionary of `_bam_to_allc_worker` (source line
178): `complement = {"A": "T", "T": "A", "C": "G", "G": "C", "N": "N"}`.
A lookup of any other character raises `KeyError` in Python, modelled by
`none`. -/
def complementChar : Char → Option Char
  | 'A' => some 'T'
  | 'T' => some 'A'
  | 'C' => some 'G'
  | 'G' => some 'C'
  | 'N' => some 'N'
  | _ => none

/-- Totalised complement, agreeing with `complementChar` on its domain
and the identity elsewhere (only ever applied where `complementChar`
succeeds). -/
def complTotal (c : Char) : Char :=
  (complementChar c).getD c

/-- The `mc_sites` set of `_bam_to_allc_worker` (source line 179):
`mc_sites = {"C", "G"}`.  The refBase column of an mpileup line is a
single character, so the set is modelled over `Char`. -/
def mcSites : List Char := ['C', 'G']

/-- One parsed mpileup line, restricted to the fields the worker reads:
`fields[0]` (chrom), `int(fields[1])` (1-based position), `fields[2]`
(reference base column, a single character, before upper-casing) and
`fields[4]` (the raw call string). -/
structure PileupRec where
  chrom : String
  pos : Int
  refBase : Char
  callString : List Char
deriving DecidableEq, Repr

/-- One emitted ALLC row: the seven tab-separated output columns of
`_bam_to_allc_worker` (the last column is the literal "1", added by
`formatRow`). -/
structure AllcRow where
  chrom : String
  pos : Int
  strand : String
  context : List Char
  mc : Nat
  cov : Nat
deriving DecidableEq, Repr

/-- Processing of one mpileup record by the loop body of
`_bam_to_allc_worker` (source lines 203-305), returning the emitted ALLC
row, if any.  Mirrors the source: skip unless the upper-cased refBase is
in `mc_sites`; strip indels from the call string; for refBase "C" slice
`seq[(pos - num_upstr_bases):(pos + num_downstr_bases + 1)]` (0-based
`pos`), count "." and "T"; for refBase "G" slice
`seq[(pos - num_downstr_bases):(pos + num_upstr_bases + 1)]`, complement
each base of the reversed slice (a `KeyError` on an uncomplementable
base is caught and the record skipped), count "," and "a"; emit only
when `cov > 0` and the context has exactly
`num_upstr_bases + 1 + num_downstr_bases` characters. -/
def processLine (numUpstrBases numDownstrBases : Nat) (seq : List Char)
    (rec : PileupRec) : Option AllcRow :=
  let refBase := rec.refBase.toUpper
  if refBase ∈ mcSites then
    let stripped := removeIndels rec.callString
    let pos : Int := rec.pos - 1
    if refBase = 'C' then
      let context := pySlice seq (pos - numUpstrBases) (pos + numDownstrBases + 1)
      let unconvertedC := stripped.count '.'
      let convertedC := stripped.count 'T'
      let cov := unconvertedC + convertedC
      if 0 < cov ∧ context.length = numUpstrBases + 1 + numDownstrBases then
        some ⟨rec.chrom, pos + 1, "+", context, unconvertedC, cov⟩
      else none
    else
      match (pySlice seq (pos - numDownstrBases) (pos + numUpstrBases + 1)).reverse.mapM
          complementChar with
      | none => none
      | some context =>
        let unconvertedC := stripped.count ','
        let convertedC := stripped.count 'a'
        let cov := unconvertedC + convertedC
        if 0 < cov ∧ context.length = numUpstrBases + 1 + numDownstrBases then
          some ⟨rec.chrom, pos + 1, "-", context, unconvertedC, cov⟩
        else none
  else none

/-- The tab-separated output line built for an emitted row (source lines
253-266 and 288-301): chrom, 1-based position, strand, context,
methylated count, coverage and the literal final column "1", terminated
by a newline. -/
def formatRow (r : AllcRow) : String :=
  r.chrom ++ "\t" ++ toString r.pos ++ "\t" ++ r.strand ++ "\t" ++ String.mk r.context
    ++ "\t" ++ toString r.mc ++ "\t" ++ toString r.cov ++ "\t" ++ "1" ++ "\n"

/-- The mutable per-run state touched by one loop iteration that the
claims talk about: the emitted rows (the `out` buffer, kept as structured
rows) and the per-context statistics dictionaries `mc_dict` and
`cov_dict` (`collections.defaultdict(int)`, modelled as total functions
defaulting to 0). -/
structure WorkerState where
  rows : List AllcRow
  mcDict : List Char → Nat
  covDict : List Char → Nat

/-- `dict[key] += v` on a `defaultdict(int)`. -/
def updateDict (dict : List Char → Nat) (key : List Char) (v : Nat) :
    List Char → Nat :=
  fun k => if k = key then dict k + v else dict k

/-- One loop iteration of `_bam_to_allc_worker` at the state level: when
the record yields a row, the row is appended to the output and
`mc_dict[context] += unconverted_c`, `cov_dict[context] += cov` are
applied (source lines 251-270 and 286-305); otherwise the state is left
untouched. -/
def workerStep (numUpstrBases numDownstrBases : Nat) (seq : List Char)
    (st : WorkerState) (rec : PileupRec) : WorkerState :=
  match processLine numUpstrBases numDownstrBases seq rec with
  | none => st
  | some r =>
    ⟨st.rows ++ [r], updateDict st.mcDict r.context r.mc,
      updateDict st.covDict r.context r.cov⟩

/-- The coverage the worker computes for a record, abstracted from the
two branches of the source: counts of "." and "T" on the indel-stripped
call string for refBase "C", counts of "," and "a" for refBase "G". -/
def coverageOf (rec : PileupRec) : Nat :=
  if rec.refBase.toUpper = 'C' then
    (removeIndels rec.callString).count '.' + (removeIndels rec.callString).count 'T'
  else
    (removeIndels rec.callString).count ',' + (removeIndels rec.callString).count 'a'

/-- The context window the worker realizes for a record, abstracted from
the two branches of the source: the plain slice for refBase "C", the
complemented reversed slice for refBase "G" (`none` when a base cannot
be complemented, which the source skips via `KeyError`). -/
def contextOf (numUpstrBases numDownstrBases : Nat) (seq : List Char)
    (rec : PileupRec) : Option (List Char) :=
  if rec.refBase.toUpper = 'C' then
    some (pySlice seq (rec.pos - 1 - numUpstrBases) (rec.pos - 1 + numDownstrBases + 1))
  else
    (pySlice seq (rec.pos - 1 - numDownstrBases)
        (rec.pos - 1 + numUpstrBases + 1)).reverse.mapM complementChar

/-- The line-reading loop of `_get_chromosome_sequence_upper` (source
lines 110-116), before the final `.upper()`: starting from the line the
byte offset points at (the seek is modelled by passing the suffix of the
file as a line list, each line including its terminator), stop at the
first line starting with ">" or at end of file, and append `line[:tail]`
for every line read.  In a file produced by line iteration no line is
empty; an empty list has no first character and is treated as a data
line. -/
def chromSeqLines (tail : Int) : List (List Char) → List Char
  | [] => []
  | line :: rest =>
    if line.head? = some '>' then []
    else pyTake line tail ++ chromSeqLines tail rest

/-- `_get_chromosome_sequence_upper` (source lines 106-117) from the
seek position on: `tail` is `LINEBASES - LINEWIDTH` and the collected
sequence is upper-cased at the end (`seq.upper()`). -/
def _get_chromosome_sequence_upper (tail : Int) (lines : List (List Char)) :
    List Char :=
  (chromSeqLines tail lines).map Char.toUpper

/-- Per-line operation described by the specification for claim C8: the
trailing line terminator is stripped and the line is truncated to
`lineBases` characters.  Stated from the specification text for
comparison with the `line[:tail]` of the source. -/
def specFastaLine (lineBases : Nat) (term : List Char) (line : List Char) :
    List Char :=
  (line.take (line.length - term.length)).take lineBases

/-- One alignment record, restricted to what `_convert_bam_strandness`
touches: the optional YZ tag (hisat-3n) and XG tag (bismark), the
orientation flag, the paired flag and the mate orientation flag. -/
structure BamRead where
  yz : Option String
  xg : Option String
  isForward : Bool
  isPaired : Bool
  mateIsForward : Bool
deriving DecidableEq, Repr

/-- `_is_read_ct_conversion_hisat3n` (source lines 54-55):
`read.get_tag("YZ") == "+"`; a missing tag raises `KeyError`. -/
def _is_read_ct_conversion_hisat3n (read : BamRead) : Except String Bool :=
  match read.yz with
  | some v => .ok (v = "+")
  | none => .error "KeyError: YZ"

/-- `_is_read_ct_conversion_bismark` (source lines 58-59):
`read.get_tag("XG") == "CT"`; a missing tag raises `KeyError`. -/
def _is_read_ct_conversion_bismark (read : BamRead) : Except String Bool :=
  match read.xg with
  | some v => .ok (v = "CT")
  | none => .error "KeyError: XG"

/-- The two tag conventions the normaliser can settle on: the function
stored in the `is_ct_func` variable of the source. -/
inductive CtFunc
  | hisat3n
  | bismark
deriving DecidableEq, Repr

def applyCtFunc : CtFunc → BamRead → Except String Bool
  | .hisat3n => _is_read_ct_conversion_hisat3n
  | .bismark => _is_read_ct_conversion_bismark

/-- The flag rewriting of `_convert_bam_strandness` (source lines 79-86):
a C-to-T read (and its mate, when paired) is forced forward, any other
read (and its mate, when paired) is forced reverse. -/
def setReadStrand (read : BamRead) (isCt : Bool) : BamRead :=
  if isCt then
    { read with
      isForward := true
      mateIsForward := if read.isPaired then true else read.mateIsForward }
  else
    { read with
      isForward := false
      mateIsForward := if read.isPaired then false else read.mateIsForward }

/-- The error message raised at source lines 74-78 when the first record
has neither tag. -/
def noTagMsg : String :=
  "The bam file reads has no conversion type tag (XG by bismark or YZ by hisat-3n). Please note that this function can only process bam files generated by bismark or hisat-3n."

/-- The `for read in in_bam` loop of `_convert_bam_strandness` (source
lines 66-87).  The first argument is the current value of the
`is_ct_func` variable (`none` initially); while it is unset, the record
in hand selects it: YZ present chooses the hisat-3n convention, else XG
present chooses the bismark convention, else `ValueError`.  Every record
is then rewritten with the selected convention and written out. -/
def convertLoop : Option CtFunc → List BamRead → Except String (List BamRead)
  | _, [] => .ok []
  | isCtFunc, read :: rest =>
    let selected : Except String CtFunc :=
      match isCtFunc with
      | some f => .ok f
      | none =>
        if read.yz.isSome then .ok .hisat3n
        else if read.xg.isSome then .ok .bismark
        else .error noTagMsg
    match selected with
    | .error e => .error e
    | .ok f =>
      match applyCtFunc f read with
      | .error e => .error e
      | .ok ct => (convertLoop (some f) rest).map (fun rs => setReadStrand read ct :: rs)

/-- `_convert_bam_strandness` (source lines 62-88) on the record stream:
the rewritten stream, or the error the loop raises. -/
def _convert_bam_strandness (reads : List BamRead) : Except String (List BamRead) :=
  convertLoop none reads

/-- Uniform application of one fixed, already-selected tag convention to
every record of a stream, with no detection logic at all.  Used to state
that after the first record fixes the convention, `convertLoop` performs
exactly this (claim C9). -/
def applyConvAll (f : CtFunc) : List BamRead → Except String (List BamRead)
  | [] => .ok []
  | read :: rest =>
    match applyCtFunc f read with
    | .error e => .error e
    | .ok ct => (applyConvAll f rest).map (fun rs => setReadStrand read ct :: rs)

/-- Reference sequence for the forward-strand end-to-end scenario: a
chromosome of length 102 whose 1-based positions 100-102 read "CGA". -/
def seqC6 : List Char := List.replicate 99 'A' ++ "CGA".toList

/-- The pileup record of the forward-strand end-to-end scenario:
`chr1 100 C 5 .,.T. IIIII`. -/
def recC6 : PileupRec := ⟨"chr1", 100, 'C', ".,.T.".toList⟩

/-- Reference sequence for the reverse-strand end-to-end scenario: a
chromosome of length 200 whose 1-based positions 198-200 read "TCG". -/
def seqC7 : List Char := List.replicate 197 'A' ++ "TCG".toList

/-- The pileup record of the reverse-strand end-to-end scenario:
`chr1 200 G 3 ,,a III`. -/
def recC7 : PileupRec := ⟨"chr1", 200, 'G', ",,a".toList⟩

/-- A forward-strand record whose call string carries an indel
annotation that hides one "." and one "T": `chr1 100 C 6 .+2T.T ...`.
After stripping, the call string is ".T". -/
def recC1 : PileupRec := ⟨"chr1", 100, 'C', ".+2T.T".toList⟩

/-- A record at 1-based position 1 with refBase "C", used to exercise
the near-chromosome-start path with `num_upstr_bases = 2`. -/
def recC10 : PileupRec := ⟨"chr1", 1, 'C', ".".toList⟩

/-- A small reference sequence for the near-chromosome-start scenario. -/
def seqC10 : List Char := "CCCCCC".toList

/-- The empty worker state (no rows emitted, empty statistics). -/
def emptyState : WorkerState := ⟨[], fun _ => 0, fun _ => 0⟩

theorem pyBound_le (len : Nat) (i : Int) : pyBound len i ≤ len := by
  unfold pyBound
  split <;> omega

theorem pySlice_length (l : List Char) (a b : Int) :
    (pySlice l a b).length = pyBound l.length b - pyBound l.length a := by
  unfold pySlice
  rw [List.length_drop, List.length_take,
    Nat.min_eq_left (pyBound_le l.length b)]

/-- A window whose start index underflows to a negative value is always
realized strictly shorter than `x + 1 + y`. -/
theorem pySlice_short (l : List Char) (p : Int) (x y : Nat)
    (hp : 0 ≤ p) (hx : p < (x : Int)) :
    (pySlice l (p - x) (p + y + 1)).length < x + 1 + y := by
  rw [pySlice_length]
  unfold pyBound
  split_ifs <;> omega

theorem mapM_option_length {α β : Type} (f : α → Option β) :
    ∀ (l : List α) (l2 : List β), l.mapM f = some l2 → l2.length = l.length := by
  intro l
  induction l with
  | nil => intro l2 h; simp only [List.mapM_nil] at h; cases h; rfl
  | cons a as ih =>
    intro l2 h
    simp only [List.mapM_cons] at h
    cases hfa : f a with
    | none => rw [hfa] at h; simp at h
    | some b =>
      rw [hfa] at h
      cases has : as.mapM f with
      | none => rw [has] at h; simp at h
      | some bs =>
        rw [has] at h
        simp only [Option.pure_def, Option.bind_some, Option.bind_eq_bind] at h
        cases h
        simp [ih bs has]

theorem mapM_complement_eq_map :
    ∀ (l l2 : List Char), l.mapM complementChar = some l2 → l2 = l.map complTotal := by
  intro l
  induction l with
  | nil => intro l2 h; simp only [List.mapM_nil] at h; cases h; rfl
  | cons a as ih =>
    intro l2 h
    simp only [List.mapM_cons] at h
    cases hfa : complementChar a with
    | none => rw [hfa] at h; simp at h
    | some b =>
      rw [hfa] at h
      cases has : as.mapM complementChar with
      | none => rw [has] at h; simp at h
      | some bs =>
        rw [has] at h
        simp only [Option.pure_def, Option.bind_some, Option.bind_eq_bind] at h
        cases h
        simp only [List.map_cons, ih bs has, List.cons.injEq, and_true]
        simp [complTotal, hfa]

/-- Appending the scanned character to a pending literal chunk:
`read_bases[prev:index+1] = read_bases[prev:index] + read_bases[index]`. -/
theorem take_drop_snoc (s : List Char) (prev index : Nat)
    (h : index < s.length) (hpi : prev ≤ index) :
    (s.take (index + 1)).drop prev =
      (s.take index).drop prev ++ [s.get ⟨index, h⟩] := by
  rw [List.take_succ, List.getElem?_eq_getElem h]
  rw [List.drop_append_of_le_length]
  · simp
  · rw [List.length_take]
    omega

theorem drop_take_self (s : List Char) (j : Nat) : (s.take j).drop j = [] := by
  apply List.drop_eq_nil_of_le
  rw [List.length_take]
  omega

/-- The equation lemma of `specIndelStrip` at a cons cell. -/
theorem specIndelStrip_cons (c : Char) (rest : List Char) :
    specIndelStrip (c :: rest) =
      if c = '+' ∨ c = '-' then
        if (rest.takeWhile Char.isDigit).isEmpty then c :: specIndelStrip rest
        else
          specIndelStrip
            ((rest.drop (rest.takeWhile Char.isDigit).length).drop
              (digitsToNat (rest.takeWhile Char.isDigit)))
      else c :: specIndelStrip rest := by
  rw [specIndelStrip]

/-- Invariant of the stripping loop: with enough fuel, starting at scan
position `index` with pending literal chunk from `prevIndex`, the loop
returns the accumulated output, then the pending chunk, then the
described stripping of the remaining suffix. -/
theorem indelLoop_eq (s : List Char) :
    ∀ (fuel index prevIndex : Nat) (acc : List Char),
      s.length - index ≤ fuel → prevIndex ≤ index →
      indelLoop s fuel index prevIndex acc =
        acc ++ (s.take index).drop prevIndex ++ specIndelStrip (s.drop index) := by
  intro fuel
  induction fuel with
  | zero =>
    intro index prev acc hfuel hpi
    have hlen : s.length ≤ index := by omega
    rw [indelLoop, List.drop_eq_nil_of_le hlen]
    simp [specIndelStrip]
  | succ fuel ih =>
    intro index prev acc hfuel hpi
    by_cases h : index < s.length
    · rw [indelLoop, dif_pos h]
      have hdrop : s.drop index = s.get ⟨index, h⟩ :: s.drop (index + 1) := by
        rw [List.get_eq_getElem]
        exact List.drop_eq_getElem_cons h
      have hrun : (s.drop (index + 1)).takeWhile Char.isDigit = digitRun s (index + 1) := rfl
      by_cases hpm : s.get ⟨index, h⟩ = '+' ∨ s.get ⟨index, h⟩ = '-'
      · rw [if_pos hpm]
        by_cases hds : (digitRun s (index + 1)).isEmpty
        · rw [if_pos hds]
          rw [ih (index + 1) prev acc (by omega) (by omega)]
          rw [hdrop, specIndelStrip_cons, hrun, if_pos hpm, if_pos hds]
          rw [take_drop_snoc s prev index h hpi]
          simp
        · rw [if_neg hds]
          rw [ih _ _ _ (by omega) (le_refl _)]
          rw [drop_take_self]
          rw [hdrop, specIndelStrip_cons, hrun, if_pos hpm, if_neg hds]
          rw [List.drop_drop, List.drop_drop]
          rw [Nat.add_assoc (index + 1) ((digitRun s (index + 1)).length)
            (digitsToNat (digitRun s (index + 1)))]
          simp
      · rw [if_neg hpm]
        rw [ih (index + 1) prev acc (by omega) (by omega)]
        rw [hdrop, specIndelStrip_cons, if_neg hpm]
        rw [take_drop_snoc s prev index h hpi]
        simp
    · rw [indelLoop, dif_neg h]
      have hlen : s.length ≤ index := by omega
      rw [List.drop_eq_nil_of_le hlen]
      simp [specIndelStrip]

/-- On a string without "+" and "-" the described stripper is the
identity. -/
theorem specIndelStrip_of_no_marker :
    ∀ s : List Char, s.count '+' = 0 → s.count '-' = 0 → specIndelStrip s = s := by
  intro s
  induction s with
  | nil => intro _ _; rw [specIndelStrip]
  | cons c rest ih =>
    intro hplus hminus
    have hcp : c ≠ '+' := by
      intro hc
      rw [hc] at hplus
      simp [List.count_cons] at hplus
    have hcm : c ≠ '-' := by
      intro hc
      rw [hc] at hminus
      simp [List.count_cons] at hminus
    have hrp : rest.count '+' = 0 := by
      rw [List.count_cons] at hplus
      omega
    have hrm : rest.count '-' = 0 := by
      rw [List.count_cons] at hminus
      omega
    rw [specIndelStrip_cons, if_neg (by simp [hcp, hcm])]
    rw [ih hrp hrm]

/-- The loop of `convertLoop` with the convention already selected is
the uniform application of that one convention to the remaining
records. -/
theorem convertLoop_some (f : CtFunc) :
    ∀ reads : List BamRead, convertLoop (some f) reads = applyConvAll f reads := by
  intro reads
  induction reads with
  | nil => rfl
  | cons r rs ih =>
    rw [convertLoop, applyConvAll]
    cases hfr : applyCtFunc f r with
    | error e => simp [hfr]
    | ok ct => simp [hfr, ih]

/-- Claim C3: the indel stripper of `_bam_to_allc_worker` removes each
occurrence of a "+" or "-" marker that is followed by a decimal digit
run encoding a length n, together with that digit run and the n
characters following it; a "+" or "-" not followed by at least one digit
is kept as a literal character; all characters outside indel annotations
are preserved in their original order.  Stated as: the source loop
`removeIndels` computes exactly the left-to-right stripping procedure
`specIndelStrip` transcribed from the specification. -/
theorem c3_indel_stripper_matches_description (s : List Char) :
    removeIndels s = specIndelStrip s := by
  unfold removeIndels
  split
  · rw [indelLoop_eq s (s.length + 1) 0 0 [] (by omega) (le_refl 0)]
    simp
  · rename_i hcount
    have hp : s.count '+' = 0 := by omega
    have hm : s.count '-' = 0 := by omega
    exact (specIndelStrip_of_no_marker s hp hm).symm

/-- The stripper leaves a string without markers unchanged (the
`incons_basecalls > 0` guard of source line 209 fails). -/
theorem removeIndels_of_no_marker (t : List Char)
    (h : t.count '+' + t.count '-' = 0) : removeIndels t = t := by
  unfold removeIndels
  rw [if_neg (by omega)]

/-- Claim C4, counterexample: indel stripping is NOT idempotent.  On
"+-1X2AB" the first pass keeps the leading "+" as a literal (no digit
follows it), strips the "-1X" annotation, and outputs "+2AB"; the second
pass then sees "+2" as a fresh indel annotation and strips everything,
yielding the empty string. -/
theorem c4_counterexample :
    removeIndels (removeIndels ("+-1X2AB".toList)) ≠
      removeIndels ("+-1X2AB".toList) := by
  decide

/-- Claim C4 (amended): stripping the call string "..+2AT.." yields
"...."; and stripping is idempotent on every call string whose FIRST
stripping result contains no "+" and no "-" marker (the stripper leaves
a string without markers unchanged).  Full idempotence fails because a
pass can juxtapose a kept literal marker with a digit run, see the
counterexample. -/
theorem c4_amended :
    removeIndels ("..+2AT..".toList) = "....".toList ∧
      ∀ s : List Char,
        (removeIndels s).count '+' + (removeIndels s).count '-' = 0 →
        removeIndels (removeIndels s) = removeIndels s := by
  constructor
  · decide
  · intro s h
    exact removeIndels_of_no_marker (removeIndels s) h

/-- Claim C4 witness: the idempotence part applied to "..+2AT..", whose
stripping result "...." has no markers. -/
theorem c4_amended_witness :
    removeIndels (removeIndels ("..+2AT..".toList)) =
      removeIndels ("..+2AT..".toList) :=
  c4_amended.2 ("..+2AT..".toList) (by decide)

/-- Claim C6, counterexample: the pileup line `chr1 100 C 5 .,.T. IIIII`
with upstream 0, downstream 2 and reference positions 100-102 = "CGA"
does NOT emit the row `chr1 100 + CGA 4 5 1`: the call string ".,.T."
has three "." characters (not four), the "," is not counted on the
forward strand, so methylatedCount is 3 and coverage is 4. -/
theorem c6_counterexample :
    processLine 0 2 seqC6 recC6 ≠ some ⟨"chr1", 100, "+", "CGA".toList, 4, 5⟩ := by
  decide

/-- Claim C6 (amended): the pileup line `chr1 100 C 5 .,.T. IIIII` with
upstream 0, downstream 2 and reference positions 100-102 = "CGA" emits
exactly the row `chr1 100 + CGA 3 4 1`, i.e. methylatedCount 3 and
coverage 4. -/
theorem c6_amended :
    processLine 0 2 seqC6 recC6 = some ⟨"chr1", 100, "+", "CGA".toList, 3, 4⟩ ∧
      formatRow ⟨"chr1", 100, "+", "CGA".toList, 3, 4⟩ =
        "chr1\t100\t+\tCGA\t3\t4\t1\n" := by
  constructor
  · decide
  · rfl

/-- Claim C7, counterexample: the pileup line `chr1 200 G 3 ,,a III`
with upstream 0, downstream 2 and reference positions 198-200 = "TCG"
does NOT emit a row with context "CGC": the realized window
seq[197:200] is "TCG", whose reversed complement is "CGA". -/
theorem c7_counterexample :
    processLine 0 2 seqC7 recC7 ≠ some ⟨"chr1", 200, "-", "CGC".toList, 2, 3⟩ := by
  decide

/-- Claim C7 (amended): the pileup line `chr1 200 G 3 ,,a III` with
upstream 0, downstream 2 and reference positions 198-200 = "TCG" emits
exactly the row `chr1 200 - CGA 2 3 1`: context "CGA" (the reversed
complement of the window "TCG"), methylatedCount 2, coverage 3. -/
theorem c7_amended :
    processLine 0 2 seqC7 recC7 = some ⟨"chr1", 200, "-", "CGA".toList, 2, 3⟩ ∧
      formatRow ⟨"chr1", 200, "-", "CGA".toList, 2, 3⟩ =
        "chr1\t200\t-\tCGA\t2\t3\t1\n" := by
  constructor
  · decide
  · rfl

/-- Claim C1, counterexample: the counts of an emitted row are taken on
the indel-stripped call string, not on the raw call string.  The raw
call string ".+2T.T" (two ".", two "T") strips to ".T", and the emitted
row has methylatedCount 1 and coverage 2, while the claim predicts
methylatedCount 2 and coverage 4. -/
theorem c1_counterexample :
    processLine 0 2 seqC6 recC1 = some ⟨"chr1", 100, "+", "CGA".toList, 1, 2⟩ ∧
      recC1.callString.count '.' = 2 ∧ (1 : Nat) ≠ 2 := by
  refine ⟨by decide, by decide, by decide⟩

/-- Claim C9: the orientation normaliser fixes the conversion-tag
convention from the first record of the stream (the two-valued YZ tag of
hisat-3n, else the two-valued XG tag of bismark), applies that one
convention unchanged to every record with no per-record re-detection,
and fails with the unsupported-tag error when the first record carries
neither tag. -/
theorem c9_orientation_normalizer (read : BamRead) (rest : List BamRead) :
    _convert_bam_strandness (read :: rest) =
      if read.yz.isSome then applyConvAll CtFunc.hisat3n (read :: rest)
      else if read.xg.isSome then applyConvAll CtFunc.bismark (read :: rest)
      else .error noTagMsg := by
  unfold _convert_bam_strandness
  rw [convertLoop]
  by_cases hyz : read.yz.isSome
  · rw [if_pos hyz]
    simp only [hyz, if_true]
    rw [applyConvAll]
    cases hfr : applyCtFunc CtFunc.hisat3n read with
    | error e => simp [hfr]
    | ok ct => simp [hfr, convertLoop_some]
  · rw [if_neg hyz]
    by_cases hxg : read.xg.isSome
    · rw [if_pos hxg]
      simp only [hyz, hxg, if_true, if_false, Bool.false_eq_true]
      rw [applyConvAll]
      cases hfr : applyCtFunc CtFunc.bismark read with
      | error e => simp [hfr]
      | ok ct => simp [hfr, convertLoop_some]
    · rw [if_neg hxg]
      simp only [hyz, hxg, if_false, Bool.false_eq_true]

/-- Claim C5: for every emitted reverse-strand (refBase "G") row, the
emitted context equals the per-base complement of the reference window
`seq[pos-1-downstream : pos-1+upstream+1]`, reversed; and reversing the
window first and then complementing each base (as the implementation
does) yields the same string. -/
theorem c5_reverse_context (u d : Nat) (seq : List Char) (rec : PileupRec)
    (r : AllcRow) (hG : rec.refBase.toUpper = 'G')
    (h : processLine u d seq rec = some r) :
    r.context =
      ((pySlice seq (rec.pos - 1 - d) (rec.pos - 1 + u + 1)).map complTotal).reverse ∧
    ((pySlice seq (rec.pos - 1 - d) (rec.pos - 1 + u + 1)).map complTotal).reverse =
      (pySlice seq (rec.pos - 1 - d) (rec.pos - 1 + u + 1)).reverse.map complTotal := by
  have hrev := List.map_reverse complTotal
    (pySlice seq (rec.pos - 1 - d) (rec.pos - 1 + u + 1))
  refine ⟨?_, hrev.symm⟩
  simp only [processLine, hG] at h
  rw [if_pos (by decide : ('G' : Char) ∈ mcSites), if_neg (by decide : ¬('G' : Char) = 'C')] at h
  split at h
  · simp at h
  · rename_i ctx2 heq
    split at h
    · rw [Option.some.injEq] at h
      subst h
      have hctx := mapM_complement_eq_map _ _ heq
      simp only [hctx, hrev]
    · simp at h

/-- Claim C5 witness: the reverse-strand scenario record, whose emitted
context "CGA" is the reversed complement of the window "TCG". -/
theorem c5_witness :
    recC7.refBase.toUpper = 'G' ∧
      processLine 0 2 seqC7 recC7 = some ⟨"chr1", 200, "-", "CGA".toList, 2, 3⟩ ∧
      ((⟨"chr1", 200, "-", "CGA".toList, 2, 3⟩ : AllcRow).context =
          ((pySlice seqC7 (recC7.pos - 1 - 2) (recC7.pos - 1 + 0 + 1)).map complTotal).reverse ∧
        ((pySlice seqC7 (recC7.pos - 1 - 2) (recC7.pos - 1 + 0 + 1)).map complTotal).reverse =
          (pySlice seqC7 (recC7.pos - 1 - 2) (recC7.pos - 1 + 0 + 1)).reverse.map complTotal) :=
  ⟨by decide, by decide,
    c5_reverse_context 0 2 seqC7 recC7 ⟨"chr1", 200, "-", "CGA".toList, 2, 3⟩
      (by decide) (by decide)⟩

/-- Claim C1 (amended): for every emitted forward-strand row,
methylatedCount equals the number of "." characters in the
INDEL-STRIPPED call string of the corresponding pileup record and
coverage equals methylatedCount plus the number of "T" characters in the
indel-stripped call string; for every emitted reverse-strand row the
same holds with "," and "a".  (On call strings without indel annotations
the stripped string is the raw string.) -/
theorem c1_amended (u d : Nat) (seq : List Char) (rec : PileupRec) (r : AllcRow)
    (h : processLine u d seq rec = some r) :
    (r.strand = "+" →
      r.mc = (removeIndels rec.callString).count '.' ∧
      r.cov = r.mc + (removeIndels rec.callString).count 'T') ∧
    (r.strand = "-" →
      r.mc = (removeIndels rec.callString).count ',' ∧
      r.cov = r.mc + (removeIndels rec.callString).count 'a') := by
  simp only [processLine] at h
  by_cases hmem : rec.refBase.toUpper ∈ mcSites
  · rw [if_pos hmem] at h
    by_cases hC : rec.refBase.toUpper = 'C'
    · rw [if_pos hC] at h
      split at h
      · rw [Option.some.injEq] at h
        subst h
        refine ⟨fun _ => ⟨rfl, rfl⟩, fun hs => ?_⟩
        exact absurd hs (by simp)
      · simp at h
    · rw [if_neg hC] at h
      split at h
      · simp at h
      · split at h
        · rw [Option.some.injEq] at h
          subst h
          refine ⟨fun hs => ?_, fun _ => ⟨rfl, rfl⟩⟩
          exact absurd hs (by simp)
        · simp at h
  · rw [if_neg hmem] at h
    simp at h

/-- Claim C1 witness: the forward-strand scenario record, whose emitted
row has methylatedCount 3 and coverage 4 matching the "." and "T" counts
of its (indel-free) call string. -/
theorem c1_amended_witness :
    processLine 0 2 seqC6 recC6 = some ⟨"chr1", 100, "+", "CGA".toList, 3, 4⟩ ∧
      (((⟨"chr1", 100, "+", "CGA".toList, 3, 4⟩ : AllcRow).strand = "+" →
          (⟨"chr1", 100, "+", "CGA".toList, 3, 4⟩ : AllcRow).mc =
            (removeIndels recC6.callString).count '.' ∧
          (⟨"chr1", 100, "+", "CGA".toList, 3, 4⟩ : AllcRow).cov =
            (⟨"chr1", 100, "+", "CGA".toList, 3, 4⟩ : AllcRow).mc +
              (removeIndels recC6.callString).count 'T') ∧
        ((⟨"chr1", 100, "+", "CGA".toList, 3, 4⟩ : AllcRow).strand = "-" →
          (⟨"chr1", 100, "+", "CGA".toList, 3, 4⟩ : AllcRow).mc =
            (removeIndels recC6.callString).count ',' ∧
          (⟨"chr1", 100, "+", "CGA".toList, 3, 4⟩ : AllcRow).cov =
            (⟨"chr1", 100, "+", "CGA".toList, 3, 4⟩ : AllcRow).mc +
              (removeIndels recC6.callString).count 'a')) :=
  ⟨by decide,
    c1_amended 0 2 seqC6 recC6 ⟨"chr1", 100, "+", "CGA".toList, 3, 4⟩ (by decide)⟩

/-- Claim C10: for every pileup record with refBase "C" whose 1-based
position is at most `num_upstr_bases` (and symmetrically refBase "G"
with position at most `num_downstr_bases`), no row is emitted and no
statistics are updated: the negative window start goes through Python
negative-index slicing rather than an exception, but the realized slice
is always strictly shorter than `upstream + 1 + downstream`, so the
length gate rejects the site. -/
theorem c10_near_chromosome_start (u d : Nat) (seq : List Char)
    (st : WorkerState) (rec : PileupRec)
    (hpos : 1 ≤ rec.pos)
    (h : (rec.refBase.toUpper = 'C' ∧ rec.pos ≤ (u : Int)) ∨
         (rec.refBase.toUpper = 'G' ∧ rec.pos ≤ (d : Int))) :
    processLine u d seq rec = none ∧
    workerStep u d seq st rec = st ∧
    (rec.refBase.toUpper = 'C' →
      (pySlice seq (rec.pos - 1 - u) (rec.pos - 1 + d + 1)).length < u + 1 + d) ∧
    (rec.refBase.toUpper = 'G' →
      (pySlice seq (rec.pos - 1 - d) (rec.pos - 1 + u + 1)).length < u + 1 + d) := by
  rcases h with ⟨hC, hle⟩ | ⟨hG, hle⟩
  · have hshort : (pySlice seq (rec.pos - 1 - u) (rec.pos - 1 + d + 1)).length
        < u + 1 + d :=
      pySlice_short seq (rec.pos - 1) u d (by omega) (by omega)
    have hnone : processLine u d seq rec = none := by
      simp only [processLine, hC]
      rw [if_pos (by decide : ('C' : Char) ∈ mcSites)]
      rw [if_pos trivial]
      rw [if_neg]
      intro hgate
      have hlen2 := hgate.2
      omega
    refine ⟨hnone, ?_, fun _ => hshort, fun hg => ?_⟩
    · simp only [workerStep, hnone]
    · rw [hC] at hg
      exact absurd hg (by decide)
  · have hshort : (pySlice seq (rec.pos - 1 - d) (rec.pos - 1 + u + 1)).length
        < u + 1 + d := by
      have := pySlice_short seq (rec.pos - 1) d u (by omega) (by omega)
      omega
    have hnone : processLine u d seq rec = none := by
      simp only [processLine, hG]
      rw [if_pos (by decide : ('G' : Char) ∈ mcSites),
        if_neg (by decide : ¬('G' : Char) = 'C')]
      split
      · rfl
      · rename_i ctx2 heq
        rw [if_neg]
        intro hgate
        have hlen2 := hgate.2
        have hlen := mapM_option_length complementChar _ _ heq
        rw [List.length_reverse] at hlen
        omega
    refine ⟨hnone, ?_, fun hc => ?_, fun _ => hshort⟩
    · simp only [workerStep, hnone]
    · rw [hG] at hc
      exact absurd hc (by decide)

/-- Claim C10 witness: a refBase "C" record at 1-based position 1 with
`num_upstr_bases = 2` is dropped and leaves the state unchanged. -/
theorem c10_witness :
    (1 ≤ recC10.pos) ∧
      (processLine 2 2 seqC10 recC10 = none ∧
        workerStep 2 2 seqC10 emptyState recC10 = emptyState ∧
        (recC10.refBase.toUpper = 'C' →
          (pySlice seqC10 (recC10.pos - 1 - 2) (recC10.pos - 1 + 2 + 1)).length < 2 + 1 + 2) ∧
        (recC10.refBase.toUpper = 'G' →
          (pySlice seqC10 (recC10.pos - 1 - 2) (recC10.pos - 1 + 2 + 1)).length < 2 + 1 + 2)) :=
  ⟨by decide,
    c10_near_chromosome_start 2 2 seqC10 emptyState recC10 (by decide)
      (Or.inl ⟨by decide, by decide⟩)⟩

/-- Claim C2: for every pileup record with refBase in C, G, a row is
emitted and the per-context statistics are updated if and only if the
coverage is positive and the realized context window has length exactly
`upstream + 1 + downstream`; consequently every emitted row satisfies
`cov > 0`, `context.length = upstream + 1 + downstream` and
`mc ≤ cov`. -/
theorem c2_emission_gate (u d : Nat) (seq : List Char) (st : WorkerState)
    (rec : PileupRec)
    (h : rec.refBase.toUpper = 'C' ∨ rec.refBase.toUpper = 'G') :
    ((processLine u d seq rec).isSome ↔
      0 < coverageOf rec ∧
        ∃ ctx, contextOf u d seq rec = some ctx ∧ ctx.length = u + 1 + d) ∧
    (∀ r, processLine u d seq rec = some r →
      0 < r.cov ∧ r.context.length = u + 1 + d ∧ r.mc ≤ r.cov ∧
      workerStep u d seq st rec =
        ⟨st.rows ++ [r], updateDict st.mcDict r.context r.mc,
          updateDict st.covDict r.context r.cov⟩) ∧
    (processLine u d seq rec = none → workerStep u d seq st rec = st) := by
  rcases h with hC | hG
  · have hcov : coverageOf rec =
        (removeIndels rec.callString).count '.' + (removeIndels rec.callString).count 'T' := by
      simp only [coverageOf, hC]
      rw [if_pos trivial]
    have hctx : contextOf u d seq rec =
        some (pySlice seq (rec.pos - 1 - u) (rec.pos - 1 + d + 1)) := by
      simp only [contextOf, hC]
      rw [if_pos trivial]
    by_cases hgate :
        0 < (removeIndels rec.callString).count '.' + (removeIndels rec.callString).count 'T' ∧
          (pySlice seq (rec.pos - 1 - u) (rec.pos - 1 + d + 1)).length = u + 1 + d
    · have hpl : processLine u d seq rec =
          some ⟨rec.chrom, rec.pos - 1 + 1, "+",
            pySlice seq (rec.pos - 1 - u) (rec.pos - 1 + d + 1),
            (removeIndels rec.callString).count '.',
            (removeIndels rec.callString).count '.' +
              (removeIndels rec.callString).count 'T'⟩ := by
        simp only [processLine, hC]
        rw [if_pos (by decide : ('C' : Char) ∈ mcSites)]
        rw [if_pos trivial]
        rw [if_pos hgate]
      refine ⟨?_, ?_, ?_⟩
      · rw [hpl, hcov, hctx]
        simp only [Option.isSome_some, true_iff]
        exact ⟨hgate.1, _, rfl, hgate.2⟩
      · intro r hr
        rw [hpl, Option.some.injEq] at hr
        subst hr
        refine ⟨hgate.1, hgate.2, Nat.le_add_right _ _, ?_⟩
        simp only [workerStep, hpl]
      · intro hr
        rw [hpl] at hr
        exact absurd hr (by simp)
    · have hpl : processLine u d seq rec = none := by
        simp only [processLine, hC]
        rw [if_pos (by decide : ('C' : Char) ∈ mcSites)]
        rw [if_pos trivial]
        rw [if_neg hgate]
      refine ⟨?_, ?_, ?_⟩
      · rw [hpl, hcov, hctx]
        simp only [Option.isSome_none, Bool.false_eq_true, false_iff]
        intro ⟨h1, ctx, hctx2, hlen⟩
        rw [Option.some.injEq] at hctx2
        subst hctx2
        exact hgate ⟨h1, hlen⟩
      · intro r hr
        rw [hpl] at hr
        exact absurd hr (by simp)
      · intro _
        simp only [workerStep, hpl]
  · have hcov : coverageOf rec =
        (removeIndels rec.callString).count ',' + (removeIndels rec.callString).count 'a' := by
      simp only [coverageOf, hG]
      rw [if_neg (by decide)]
    have hctx : contextOf u d seq rec =
        (pySlice seq (rec.pos - 1 - d) (rec.pos - 1 + u + 1)).reverse.mapM
          complementChar := by
      simp only [contextOf, hG]
      rw [if_neg (by decide)]
    cases hm : (pySlice seq (rec.pos - 1 - d) (rec.pos - 1 + u + 1)).reverse.mapM
        complementChar with
    | none =>
      have hpl : processLine u d seq rec = none := by
        simp only [processLine, hG]
        rw [if_pos (by decide : ('G' : Char) ∈ mcSites)]
        rw [if_neg (by decide : ¬('G' : Char) = 'C')]
        rw [hm]
      refine ⟨?_, ?_, ?_⟩
      · rw [hpl, hctx, hm]
        simp
      · intro r hr
        rw [hpl] at hr
        exact absurd hr (by simp)
      · intro _
        simp only [workerStep, hpl]
    | some ctx =>
      by_cases hgate :
          0 < (removeIndels rec.callString).count ',' + (removeIndels rec.callString).count 'a' ∧
            ctx.length = u + 1 + d
      · have hpl : processLine u d seq rec =
            some ⟨rec.chrom, rec.pos - 1 + 1, "-", ctx,
              (removeIndels rec.callString).count ',',
              (removeIndels rec.callString).count ',' +
                (removeIndels rec.callString).count 'a'⟩ := by
          simp only [processLine, hG]
          rw [if_pos (by decide : ('G' : Char) ∈ mcSites)]
          rw [if_neg (by decide : ¬('G' : Char) = 'C')]
          rw [hm]
          exact if_pos hgate
        refine ⟨?_, ?_, ?_⟩
        · rw [hpl, hcov, hctx, hm]
          simp only [Option.isSome_some, true_iff]
          exact ⟨hgate.1, _, rfl, hgate.2⟩
        · intro r hr
          rw [hpl, Option.some.injEq] at hr
          subst hr
          refine ⟨hgate.1, hgate.2, Nat.le_add_right _ _, ?_⟩
          simp only [workerStep, hpl]
        · intro hr
          rw [hpl] at hr
          exact absurd hr (by simp)
      · have hpl : processLine u d seq rec = none := by
          simp only [processLine, hG]
          rw [if_pos (by decide : ('G' : Char) ∈ mcSites)]
          rw [if_neg (by decide : ¬('G' : Char) = 'C')]
          rw [hm]
          exact if_neg hgate
        refine ⟨?_, ?_, ?_⟩
        · rw [hpl, hcov, hctx, hm]
          simp only [Option.isSome_none, Bool.false_eq_true, false_iff]
          intro ⟨h1, ctx2, hctx2, hlen⟩
          rw [Option.some.injEq] at hctx2
          subst hctx2
          exact hgate ⟨h1, hlen⟩
        · intro r hr
          rw [hpl] at hr
          exact absurd hr (by simp)
        · intro _
          simp only [workerStep, hpl]

/-- Claim C2 witness: the emission gate characterisation applied to the
forward-strand scenario record. -/
theorem c2_witness :
    (recC6.refBase.toUpper = 'C' ∨ recC6.refBase.toUpper = 'G') ∧
      (((processLine 0 2 seqC6 recC6).isSome ↔
          0 < coverageOf recC6 ∧
            ∃ ctx, contextOf 0 2 seqC6 recC6 = some ctx ∧ ctx.length = 0 + 1 + 2) ∧
        (∀ r, processLine 0 2 seqC6 recC6 = some r →
          0 < r.cov ∧ r.context.length = 0 + 1 + 2 ∧ r.mc ≤ r.cov ∧
          workerStep 0 2 seqC6 emptyState recC6 =
            ⟨emptyState.rows ++ [r], updateDict emptyState.mcDict r.context r.mc,
              updateDict emptyState.covDict r.context r.cov⟩) ∧
        (processLine 0 2 seqC6 recC6 = none →
          workerStep 0 2 seqC6 emptyState recC6 = emptyState)) :=
  ⟨Or.inl (by decide), c2_emission_gate 0 2 seqC6 emptyState recC6 (Or.inl (by decide))⟩

/-- `line[:tail]` with `tail = -(length of the terminator)` strips
exactly the terminator from a terminated line. -/
theorem pyTake_strip_terminator (b term : List Char) (hterm : 0 < term.length) :
    pyTake (b ++ term) (-(term.length : Int)) = b := by
  unfold pyTake pyBound
  rw [if_pos (by omega)]
  have h2 : (((b ++ term).length : Int) + -(term.length : Int)).toNat = b.length := by
    rw [List.length_append]
    omega
  rw [h2]
  exact List.take_left b term

/-- The per-line operation described by the specification agrees with
the terminator-stripping on a well-formed line (terminated, at most
`lineBases` payload characters). -/
theorem specFastaLine_eq (lineBases : Nat) (b term : List Char)
    (hb : b.length ≤ lineBases) :
    specFastaLine lineBases term (b ++ term) = b := by
  unfold specFastaLine
  rw [List.length_append]
  have h2 : b.length + term.length - term.length = b.length := by omega
  rw [h2, List.take_left]
  exact List.take_of_length_le hb

/-- The reading loop concatenates the terminator-stripped data lines and
stops at the record delimiter (or end of file). -/
theorem chromSeqLines_eq (term : List Char) (hterm : 0 < term.length) :
    ∀ (bodies restL : List (List Char)),
      (∀ body ∈ bodies, (body ++ term).head? ≠ some '>') →
      (∀ l ∈ restL.head?, l.head? = some '>') →
      chromSeqLines (-(term.length : Int))
          (bodies.map (fun b => b ++ term) ++ restL) = bodies.flatten := by
  intro bodies
  induction bodies with
  | nil =>
    intro restL _ hrest
    cases restL with
    | nil => rfl
    | cons l rest =>
      simp only [List.map_nil, List.nil_append, chromSeqLines, List.flatten_nil]
      rw [if_pos (hrest l (by simp))]
  | cons b bs ih =>
    intro restL hbody hrest
    simp only [List.map_cons, List.cons_append, chromSeqLines]
    rw [if_neg (hbody b (by simp))]
    rw [pyTake_strip_terminator b term hterm]
    simp only [List.append_eq]
    rw [ih restL (fun x hx => hbody x (by simp [hx])) hrest]
    simp

/-- Claim C8: `_get_chromosome_sequence_upper` returns the upper-cased
concatenation of the reference file lines from the seek position up to
(excluding) the next line beginning with ">" or end of file, with each
line truncated to `lineBases` characters and the trailing line
terminator stripped; and for a well-formed FASTA (every data line is a
payload of at most `lineBases` characters followed by the terminator of
`lineWidth - lineBases` characters, none starting with ">", and the
payload lengths sum to the indexed length) the returned sequence length
equals the indexed chromosome length. -/
theorem c8_load_chromosome (lineBases lineWidth : Nat) (term : List Char)
    (bodies restL : List (List Char)) (entryLength : Nat)
    (hterm : 0 < term.length)
    (hw : lineBases + term.length = lineWidth)
    (hbody : ∀ body ∈ bodies, body.length ≤ lineBases ∧ (body ++ term).head? ≠ some '>')
    (hrest : ∀ l ∈ restL.head?, l.head? = some '>')
    (hlen : (bodies.map List.length).sum = entryLength) :
    _get_chromosome_sequence_upper ((lineBases : Int) - (lineWidth : Int))
        (bodies.map (fun b => b ++ term) ++ restL) =
      (((bodies.map (fun b => b ++ term)).map (specFastaLine lineBases term)).flatten).map
        Char.toUpper ∧
    (_get_chromosome_sequence_upper ((lineBases : Int) - (lineWidth : Int))
        (bodies.map (fun b => b ++ term) ++ restL)).length = entryLength := by
  have htail : (lineBases : Int) - (lineWidth : Int) = -(term.length : Int) := by
    omega
  have hcode : _get_chromosome_sequence_upper ((lineBases : Int) - (lineWidth : Int))
      (bodies.map (fun b => b ++ term) ++ restL) = bodies.flatten.map Char.toUpper := by
    unfold _get_chromosome_sequence_upper
    rw [htail, chromSeqLines_eq term hterm bodies restL (fun x hx => (hbody x hx).2) hrest]
  have hspec : (bodies.map (fun b => b ++ term)).map (specFastaLine lineBases term) =
      bodies := by
    rw [List.map_map]
    have : bodies.map (fun b => specFastaLine lineBases term (b ++ term)) =
        bodies.map id := by
      apply List.map_congr_left
      intro b hb
      rw [specFastaLine_eq lineBases b term (hbody b hb).1]
      rfl
    simpa using this
  constructor
  · rw [hcode, hspec]
  · rw [hcode, List.length_map, List.length_flatten, hlen]

/-- Claim C8 witness: a two-line chromosome ("acg" then "t", newline
terminated, `lineBases = 3`, `lineWidth = 4`) followed by the next
record header; the accessor returns "ACGT" of length 4. -/
theorem c8_witness :
    (0 < ("\n".toList).length) ∧
      (3 + ("\n".toList).length = 4) ∧
      (∀ body ∈ ["acg".toList, "t".toList],
        body.length ≤ 3 ∧ (body ++ "\n".toList).head? ≠ some '>') ∧
      (∀ l ∈ ([">chr2".toList] : List (List Char)).head?, l.head? = some '>') ∧
      ((["acg".toList, "t".toList].map List.length).sum = 4) ∧
      (_get_chromosome_sequence_upper ((3 : Int) - (4 : Int))
          (["acg".toList, "t".toList].map (fun b => b ++ "\n".toList) ++ [">chr2".toList]) =
        ((["acg".toList, "t".toList].map (fun b => b ++ "\n".toList)).map
            (specFastaLine 3 ("\n".toList))).flatten.map Char.toUpper ∧
      (_get_chromosome_sequence_upper ((3 : Int) - (4 : Int))
          (["acg".toList, "t".toList].map (fun b => b ++ "\n".toList) ++ [">chr2".toList])).length = 4) :=
  ⟨by decide, by decide, by decide, by decide, by decide,
    c8_load_chromosome 3 4 ("\n".toList) ["acg".toList, "t".toList] [">chr2".toList] 4
      (by decide) (by decide) (by decide) (by decide) (by decide)⟩
